import Mathlib

/-!
Shallow embedding of the wplace-dl-with-osm-bg tile stitcher (src/main.py)
and proofs of the specification claims about it.

The Python source works with IEEE floats; the projection arithmetic is
embedded over the real numbers.  Everything downstream of the projection
(tile lists, the cache-aware fetch loop, per-tile compositing, the
collection loop that writes the shared canvas) is embedded as executable
Lean functions.
-/

namespace WplaceDL

/-! ## Projection (src/main.py, lat_lon_to_tile, lines 12-16) -/

/-- `lat_lon_to_tile(lat, lon, zoom)`: Web-Mercator fractional tile
coordinates, exactly the formula of the source:
x = (lon + 180) / 360 * n and
y = (1 - log(tan(radians lat) + 1 / cos(radians lat)) / pi) / 2 * n
with n = 2 ^ zoom. -/
noncomputable def lat_lon_to_tile (lat lon : ℝ) (zoom : ℕ) : ℝ × ℝ :=
  ((lon + 180) / 360 * 2 ^ zoom,
   (1 - Real.log (Real.tan (lat * Real.pi / 180) + 1 / Real.cos (lat * Real.pi / 180))
      / Real.pi) / 2 * 2 ^ zoom)

/-! ## Tile range (src/main.py, get_tiles_in_bbox, lines 18-44) -/

/-- The conditional swap at the top of `get_tiles_in_bbox`:
`if min_v > max_v: min_v, max_v = max_v, min_v`. -/
noncomputable def normPair (a b : ℝ) : ℝ × ℝ :=
  if a > b then (b, a) else (a, b)

/-- One clamped bound: `max(0, min(v, n - 1))` (lines 39-42). -/
def clampBound (v n : ℤ) : ℤ :=
  max 0 (min v (n - 1))

/-- The list comprehension
`[(x, y) for x in range(start_x, end_x + 1) for y in range(start_y, end_y + 1)]`
(line 44). -/
def tileList (sx ex sy ey : ℤ) : List (ℤ × ℤ) :=
  (List.range (ex + 1 - sx).toNat).flatMap fun (i : ℕ) =>
    (List.range (ey + 1 - sy).toNat).map fun (j : ℕ) => (sx + (i : ℤ), sy + (j : ℤ))

/-- Lines 18-42 of `get_tiles_in_bbox`: normalise the bbox, project the four
corners, floor the minima and ceil the maxima, clamp into `[0, n-1]`.
Returns `(start_x, end_x, start_y, end_y)`. -/
noncomputable def tile_bounds (min_lat max_lat min_lon max_lon : ℝ) (zoom : ℕ) :
    ℤ × ℤ × ℤ × ℤ :=
  let lats := normPair min_lat max_lat
  let lons := normPair min_lon max_lon
  let nw := lat_lon_to_tile lats.2 lons.1 zoom
  let ne := lat_lon_to_tile lats.2 lons.2 zoom
  let sw := lat_lon_to_tile lats.1 lons.1 zoom
  let se := lat_lon_to_tile lats.1 lons.2 zoom
  let start_x := ⌊min (min (min nw.1 ne.1) sw.1) se.1⌋
  let end_x := ⌈max (max (max nw.1 ne.1) sw.1) se.1⌉
  let start_y := ⌊min (min (min nw.2 ne.2) sw.2) se.2⌋
  let end_y := ⌈max (max (max nw.2 ne.2) sw.2) se.2⌉
  let n : ℤ := 2 ^ zoom
  (clampBound start_x n, clampBound end_x n, clampBound start_y n, clampBound end_y n)

/-- `get_tiles_in_bbox(min_lat, max_lat, min_lon, max_lon, zoom)` (lines 18-44). -/
noncomputable def get_tiles_in_bbox (min_lat max_lat min_lon max_lon : ℝ)
    (zoom : ℕ) : List (ℤ × ℤ) :=
  let b := tile_bounds min_lat max_lat min_lon max_lon zoom
  tileList b.1 b.2.1 b.2.2.1 b.2.2.2

/-! ## Basic facts about the tile range -/

theorem clampBound_nonneg (v n : ℤ) : 0 ≤ clampBound v n := by
  simp [clampBound]

theorem clampBound_le (v n : ℤ) (hn : 1 ≤ n) : clampBound v n ≤ n - 1 := by
  simp only [clampBound]
  omega

theorem clampBound_mono {v w : ℤ} (n : ℤ) (h : v ≤ w) :
    clampBound v n ≤ clampBound w n := by
  simp only [clampBound]
  omega

theorem clampBound_one (v : ℤ) : clampBound v 1 = 0 := by
  simp only [clampBound]
  omega

theorem mem_tileList {sx ex sy ey x y : ℤ} :
    (x, y) ∈ tileList sx ex sy ey ↔ (sx ≤ x ∧ x ≤ ex ∧ sy ≤ y ∧ y ≤ ey) := by
  simp only [tileList, List.mem_flatMap, List.mem_map, List.mem_range, Prod.mk.injEq]
  constructor
  · rintro ⟨i, hi, j, hj, hx, hy⟩
    omega
  · rintro ⟨h1, h2, h3, h4⟩
    exact ⟨(x - sx).toNat, by omega, (y - sy).toNat, by omega, by omega, by omega⟩

theorem tileList_ne_nil {sx ex sy ey : ℤ} (hx : sx ≤ ex) (hy : sy ≤ ey) :
    tileList sx ex sy ey ≠ [] := by
  intro h
  have : (sx, sy) ∈ tileList sx ex sy ey := mem_tileList.mpr ⟨le_refl _, hx, le_refl _, hy⟩
  rw [h] at this
  exact absurd this (List.not_mem_nil _)

theorem tileList_nodup (sx ex sy ey : ℤ) : (tileList sx ex sy ey).Nodup := by
  refine List.nodup_flatMap.mpr ⟨?_, ?_⟩
  · intro i _
    refine List.Nodup.map ?_ (List.nodup_range _)
    intro a b hab
    have h1 : sy + (a : ℤ) = sy + (b : ℤ) := congrArg Prod.snd hab
    omega
  · refine (List.pairwise_lt_range _).imp ?_
    intro i j hij
    simp only [Function.onFun, List.disjoint_left, List.mem_map, List.mem_range]
    rintro p ⟨jx, _, hx⟩ ⟨jy, _, hy⟩
    have h1 : sx + (i : ℤ) = p.1 := congrArg Prod.fst hx
    have h2 : sx + (j : ℤ) = p.1 := congrArg Prod.fst hy
    omega

/-! ## The main run: canvas allocation and the collection loop
(src/main.py, lines 139-181) -/

/-- `TILE_SIZE = 1000` (line 139). -/
def TILE_SIZE : ℕ := 1000

/-- One pixel of an RGB raster. -/
structure RGB where
  r : ℕ
  g : ℕ
  b : ℕ
deriving DecidableEq

/-- A raster, as pixel contents at integer coordinates. -/
def Canvas : Type := ℤ × ℤ → RGB

/-- The fill of `Image.new('RGB', ...)` with no color argument: black (line 163). -/
def initCanvas : Canvas := fun _ => ⟨0, 0, 0⟩

/-- `final_image.paste(img, (ox, oy))` of a TILE_SIZE x TILE_SIZE tile
(line 178): copies the tile into the axis-aligned square at offset
`(ox, oy)`, leaving every other pixel unchanged. -/
def pasteTile (c : Canvas) (ox oy : ℤ) (img : Canvas) : Canvas :=
  fun p =>
    if ox ≤ p.1 ∧ p.1 < ox + TILE_SIZE ∧ oy ≤ p.2 ∧ p.2 < oy + TILE_SIZE then
      img (p.1 - ox, p.2 - oy)
    else c p

/-- State of the collection loop (lines 163-181): the shared canvas, the
`custom_found` counter, the `processed_count` counter and the tile
coordinates printed by the except branch. -/
structure CollectState where
  canvas : Canvas
  custom_found : ℕ
  processed_count : ℕ
  failed_log : List (ℤ × ℤ)

/-- Outcome of one unit of work: `some (img, custom_used)` when
`future.result()` returns, `none` when it raises an exception. -/
abbrev TileOutcome : Type := Option (Canvas × Bool)

/-- One iteration of the `as_completed` loop (lines 171-181): bump
`processed_count`; on success bump `custom_found` when flagged and paste the
tile at `((x - min_x) * TILE_SIZE, (y - min_y) * TILE_SIZE)`; on exception
log the coordinate (taken from `future_to_tile`) and skip the write. -/
def collectStep (minX minY : ℤ) (st : CollectState) (r : (ℤ × ℤ) × TileOutcome) :
    CollectState :=
  let st1 := { st with processed_count := st.processed_count + 1 }
  match r.2 with
  | some (img, used) =>
    { st1 with
      custom_found := if used then st1.custom_found + 1 else st1.custom_found,
      canvas := pasteTile st1.canvas ((r.1.1 - minX) * TILE_SIZE)
        ((r.1.2 - minY) * TILE_SIZE) img }
  | none => { st1 with failed_log := st1.failed_log ++ [r.1] }

/-- The whole collection loop over the completed futures, starting from the
freshly allocated black canvas and zeroed counters. -/
def collectRun (minX minY : ℤ) (results : List ((ℤ × ℤ) × TileOutcome)) :
    CollectState :=
  results.foldl (collectStep minX minY) ⟨initCanvas, 0, 0, []⟩

/-- Python `min` over a nonempty list (`min(x_vals)`, line 156). -/
def listMinInt : List ℤ → ℤ
  | [] => 0
  | x :: xs => xs.foldl min x

/-- Python `max` over a nonempty list (`max(x_vals)`, line 156). -/
def listMaxInt : List ℤ → ℤ
  | [] => 0
  | x :: xs => xs.foldl max x

/-- Lines 154-163: the pixel size `(cols * TILE_SIZE, rows * TILE_SIZE)` of
the allocated `final_image`, with `cols = max_x - min_x + 1` and
`rows = max_y - min_y + 1` computed from the tile list. -/
noncomputable def canvasSize (min_lat max_lat min_lon max_lon : ℝ) (zoom : ℕ) :
    ℤ × ℤ :=
  let tiles := get_tiles_in_bbox min_lat max_lat min_lon max_lon zoom
  let min_x := listMinInt (tiles.map Prod.fst)
  let max_x := listMaxInt (tiles.map Prod.fst)
  let min_y := listMinInt (tiles.map Prod.snd)
  let max_y := listMaxInt (tiles.map Prod.snd)
  ((max_x - min_x + 1) * TILE_SIZE, (max_y - min_y + 1) * TILE_SIZE)

/-- Lines 148-181 of the main script: compute the tile list, abort with
`SystemExit("no tiles found!")` when it is empty, otherwise compute the
range minima and fold the collection loop over the completed futures.
The completion order of the worker pool is modelled by `order` (in a real
run, a permutation of the tile list) and the outcome of each tile's unit of
work by `f`. -/
noncomputable def mainRun (min_lat max_lat min_lon max_lon : ℝ) (zoom : ℕ)
    (order : List (ℤ × ℤ)) (f : ℤ × ℤ → TileOutcome) : Except String CollectState :=
  let tiles := get_tiles_in_bbox min_lat max_lat min_lon max_lon zoom
  if tiles = [] then Except.error "no tiles found!"
  else
    let min_x := listMinInt (tiles.map Prod.fst)
    let min_y := listMinInt (tiles.map Prod.snd)
    Except.ok (collectRun min_x min_y (order.map fun t => (t, f t)))

/-! ## Facts about list minima and maxima -/

theorem foldl_min_le_init (xs : List ℤ) (a : ℤ) : xs.foldl min a ≤ a := by
  induction xs generalizing a with
  | nil => exact le_refl a
  | cons x xs ih => exact le_trans (ih (min a x)) (min_le_left a x)

theorem foldl_min_le_mem {xs : List ℤ} {b : ℤ} (hb : b ∈ xs) (a : ℤ) :
    xs.foldl min a ≤ b := by
  induction xs generalizing a with
  | nil => cases hb
  | cons x xs ih =>
    rcases List.mem_cons.mp hb with h | h
    · subst h
      exact le_trans (foldl_min_le_init xs (min a b)) (min_le_right a b)
    · exact ih h (min a x)

theorem foldl_min_mem (xs : List ℤ) (a : ℤ) :
    xs.foldl min a = a ∨ xs.foldl min a ∈ xs := by
  induction xs generalizing a with
  | nil => exact Or.inl rfl
  | cons x xs ih =>
    rcases ih (min a x) with h | h
    · rcases min_choice a x with hc | hc
      · exact Or.inl (by rw [List.foldl_cons, h, hc])
      · exact Or.inr (by rw [List.foldl_cons, h, hc]; exact List.mem_cons_self x xs)
    · exact Or.inr (List.mem_cons_of_mem x h)

theorem foldl_max_init_le (xs : List ℤ) (a : ℤ) : a ≤ xs.foldl max a := by
  induction xs generalizing a with
  | nil => exact le_refl a
  | cons x xs ih => exact le_trans (le_max_left a x) (ih (max a x))

theorem foldl_max_mem_le {xs : List ℤ} {b : ℤ} (hb : b ∈ xs) (a : ℤ) :
    b ≤ xs.foldl max a := by
  induction xs generalizing a with
  | nil => cases hb
  | cons x xs ih =>
    rcases List.mem_cons.mp hb with h | h
    · subst h
      exact le_trans (le_max_right a b) (foldl_max_init_le xs (max a b))
    · exact ih h (max a x)

theorem foldl_max_mem (xs : List ℤ) (a : ℤ) :
    xs.foldl max a = a ∨ xs.foldl max a ∈ xs := by
  induction xs generalizing a with
  | nil => exact Or.inl rfl
  | cons x xs ih =>
    rcases ih (max a x) with h | h
    · rcases max_choice a x with hc | hc
      · exact Or.inl (by rw [List.foldl_cons, h, hc])
      · exact Or.inr (by rw [List.foldl_cons, h, hc]; exact List.mem_cons_self x xs)
    · exact Or.inr (List.mem_cons_of_mem x h)

theorem listMinInt_eq {l : List ℤ} {a : ℤ} (ha : a ∈ l) (hle : ∀ b ∈ l, a ≤ b) :
    listMinInt l = a := by
  match l with
  | [] => cases ha
  | x :: xs =>
    apply le_antisymm
    · rcases List.mem_cons.mp ha with h | h
      · subst h
        exact foldl_min_le_init xs a
      · exact foldl_min_le_mem h x
    · rcases foldl_min_mem xs x with h | h
      · rw [listMinInt, h]
        exact hle x (List.mem_cons_self x xs)
      · exact hle _ (List.mem_cons_of_mem x h)

theorem listMaxInt_eq {l : List ℤ} {a : ℤ} (ha : a ∈ l) (hle : ∀ b ∈ l, b ≤ a) :
    listMaxInt l = a := by
  match l with
  | [] => cases ha
  | x :: xs =>
    apply le_antisymm
    · rcases foldl_max_mem xs x with h | h
      · rw [listMaxInt, h]
        exact hle x (List.mem_cons_self x xs)
      · exact hle _ (List.mem_cons_of_mem x h)
    · rcases List.mem_cons.mp ha with h | h
      · subst h
        exact foldl_max_init_le xs a
      · exact foldl_max_mem_le h x

/-! ## Facts about the computed tile bounds -/

theorem one_le_two_pow_int (zoom : ℕ) : (1 : ℤ) ≤ 2 ^ zoom :=
  one_le_pow₀ (by norm_num)

theorem tile_bounds_spec (min_lat max_lat min_lon max_lon : ℝ) (zoom : ℕ) :
    0 ≤ (tile_bounds min_lat max_lat min_lon max_lon zoom).1 ∧
    (tile_bounds min_lat max_lat min_lon max_lon zoom).1 ≤
      (tile_bounds min_lat max_lat min_lon max_lon zoom).2.1 ∧
    (tile_bounds min_lat max_lat min_lon max_lon zoom).2.1 ≤ 2 ^ zoom - 1 ∧
    0 ≤ (tile_bounds min_lat max_lat min_lon max_lon zoom).2.2.1 ∧
    (tile_bounds min_lat max_lat min_lon max_lon zoom).2.2.1 ≤
      (tile_bounds min_lat max_lat min_lon max_lon zoom).2.2.2 ∧
    (tile_bounds min_lat max_lat min_lon max_lon zoom).2.2.2 ≤ 2 ^ zoom - 1 := by
  have hn := one_le_two_pow_int zoom
  simp only [tile_bounds]
  refine ⟨clampBound_nonneg _ _, ?_, clampBound_le _ _ hn,
          clampBound_nonneg _ _, ?_, clampBound_le _ _ hn⟩
  · refine clampBound_mono _ ?_
    refine le_trans (Int.floor_mono (le_trans (min_le_right _ _) (le_max_right _ _)))
      (Int.floor_le_ceil _)
  · refine clampBound_mono _ ?_
    refine le_trans (Int.floor_mono (le_trans (min_le_right _ _) (le_max_right _ _)))
      (Int.floor_le_ceil _)

theorem get_tiles_in_bbox_ne_nil (min_lat max_lat min_lon max_lon : ℝ) (zoom : ℕ) :
    get_tiles_in_bbox min_lat max_lat min_lon max_lon zoom ≠ [] := by
  obtain ⟨-, h1, -, -, h2, -⟩ := tile_bounds_spec min_lat max_lat min_lon max_lon zoom
  exact tileList_ne_nil h1 h2

theorem tiles_map_fst_min {sx ex sy ey : ℤ} (hx : sx ≤ ex) (hy : sy ≤ ey) :
    listMinInt ((tileList sx ex sy ey).map Prod.fst) = sx := by
  apply listMinInt_eq
  · exact List.mem_map.mpr ⟨(sx, sy), mem_tileList.mpr ⟨le_refl _, hx, le_refl _, hy⟩, rfl⟩
  · intro b hb
    obtain ⟨⟨px, py⟩, hmem, rfl⟩ := List.mem_map.mp hb
    exact (mem_tileList.mp hmem).1

theorem tiles_map_fst_max {sx ex sy ey : ℤ} (hx : sx ≤ ex) (hy : sy ≤ ey) :
    listMaxInt ((tileList sx ex sy ey).map Prod.fst) = ex := by
  apply listMaxInt_eq
  · exact List.mem_map.mpr ⟨(ex, sy), mem_tileList.mpr ⟨hx, le_refl _, le_refl _, hy⟩, rfl⟩
  · intro b hb
    obtain ⟨⟨px, py⟩, hmem, rfl⟩ := List.mem_map.mp hb
    exact (mem_tileList.mp hmem).2.1

theorem tiles_map_snd_min {sx ex sy ey : ℤ} (hx : sx ≤ ex) (hy : sy ≤ ey) :
    listMinInt ((tileList sx ex sy ey).map Prod.snd) = sy := by
  apply listMinInt_eq
  · exact List.mem_map.mpr ⟨(sx, sy), mem_tileList.mpr ⟨le_refl _, hx, le_refl _, hy⟩, rfl⟩
  · intro b hb
    obtain ⟨⟨px, py⟩, hmem, rfl⟩ := List.mem_map.mp hb
    exact (mem_tileList.mp hmem).2.2.1

theorem tiles_map_snd_max {sx ex sy ey : ℤ} (hx : sx ≤ ex) (hy : sy ≤ ey) :
    listMaxInt ((tileList sx ex sy ey).map Prod.snd) = ey := by
  apply listMaxInt_eq
  · exact List.mem_map.mpr ⟨(sx, ey), mem_tileList.mpr ⟨le_refl _, hx, hy, le_refl _⟩, rfl⟩
  · intro b hb
    obtain ⟨⟨px, py⟩, hmem, rfl⟩ := List.mem_map.mp hb
    exact (mem_tileList.mp hmem).2.2.2

theorem normPair_comm (a b : ℝ) : normPair a b = normPair b a := by
  unfold normPair
  rcases lt_trichotomy a b with h | h | h
  · rw [if_neg (not_lt.mpr h.le), if_pos h]
  · subst h
    rfl
  · rw [if_pos h, if_neg (not_lt.mpr h.le)]

/-- C6: the tile range is order-invariant — swapping the two latitude inputs
or swapping the two longitude inputs of `get_tiles_in_bbox` yields an
identical tile list. -/
theorem C6_tile_range_order_invariant (a b c d : ℝ) (zoom : ℕ) :
    get_tiles_in_bbox b a c d zoom = get_tiles_in_bbox a b c d zoom ∧
    get_tiles_in_bbox a b d c zoom = get_tiles_in_bbox a b c d zoom := by
  constructor
  · unfold get_tiles_in_bbox tile_bounds
    rw [normPair_comm b a]
  · unfold get_tiles_in_bbox tile_bounds
    rw [normPair_comm d c]

/-! ## Canvas regions and the collection loop -/

/-- `get_tiles_in_bbox` is `tileList` applied to the clamped bounds. -/
theorem get_tiles_eq (min_lat max_lat min_lon max_lon : ℝ) (zoom : ℕ) :
    get_tiles_in_bbox min_lat max_lat min_lon max_lon zoom =
      tileList (tile_bounds min_lat max_lat min_lon max_lon zoom).1
        (tile_bounds min_lat max_lat min_lon max_lon zoom).2.1
        (tile_bounds min_lat max_lat min_lon max_lon zoom).2.2.1
        (tile_bounds min_lat max_lat min_lon max_lon zoom).2.2.2 := rfl

/-- Pixel `p` lies in the TILE_SIZE x TILE_SIZE canvas rectangle of tile `t`,
whose top-left corner is `((t.1 - minX) * TILE_SIZE, (t.2 - minY) * TILE_SIZE)`
(the paste offset of line 178). -/
def inRect (minX minY : ℤ) (t p : ℤ × ℤ) : Prop :=
  (t.1 - minX) * TILE_SIZE ≤ p.1 ∧ p.1 < (t.1 - minX) * TILE_SIZE + TILE_SIZE ∧
  (t.2 - minY) * TILE_SIZE ≤ p.2 ∧ p.2 < (t.2 - minY) * TILE_SIZE + TILE_SIZE

instance (minX minY : ℤ) (t p : ℤ × ℤ) : Decidable (inRect minX minY t p) := by
  unfold inRect
  infer_instance

/-- Two tiles whose rectangles share a pixel are the same tile: the regions
of distinct tiles never overlap. -/
theorem inRect_eq {minX minY : ℤ} {t u p : ℤ × ℤ}
    (ht : inRect minX minY t p) (hu : inRect minX minY u p) : t = u := by
  obtain ⟨h1, h2, h3, h4⟩ := ht
  obtain ⟨h5, h6, h7, h8⟩ := hu
  simp only [TILE_SIZE] at h1 h2 h3 h4 h5 h6 h7 h8
  have hfst : t.1 = u.1 := by omega
  have hsnd : t.2 = u.2 := by omega
  exact Prod.ext hfst hsnd

theorem collectStep_canvas_out {minX minY : ℤ} {p : ℤ × ℤ}
    (st : CollectState) (r : (ℤ × ℤ) × TileOutcome)
    (h : ¬ inRect minX minY r.1 p) :
    (collectStep minX minY st r).canvas p = st.canvas p := by
  obtain ⟨t, out⟩ := r
  match out with
  | none => rfl
  | some (img, used) => exact if_neg h

theorem collectStep_canvas_in {minX minY : ℤ} {p : ℤ × ℤ} {t : ℤ × ℤ}
    {img : Canvas} {used : Bool} (st : CollectState)
    (h : inRect minX minY t p) :
    (collectStep minX minY st (t, some (img, used))).canvas p =
      img (p.1 - (t.1 - minX) * TILE_SIZE, p.2 - (t.2 - minY) * TILE_SIZE) :=
  if_pos h

theorem collect_foldl_canvas_out {minX minY : ℤ} {p : ℤ × ℤ}
    (rs : List ((ℤ × ℤ) × TileOutcome)) (st : CollectState)
    (h : ∀ r ∈ rs, ¬ inRect minX minY r.1 p) :
    ((rs.foldl (collectStep minX minY) st).canvas) p = st.canvas p := by
  induction rs generalizing st with
  | nil => rfl
  | cons r rs ih =>
    rw [List.foldl_cons, ih _ (fun u hu => h u (List.mem_cons_of_mem _ hu))]
    exact collectStep_canvas_out st r (h r (List.mem_cons_self _ _))

/-- The pixel of a tile written somewhere in the middle of the collection
loop, with every other processed tile missing that pixel: a successful
result lands the tile bitmap there, a failed one leaves the pixel at the
incoming canvas value. -/
theorem collect_pixel_some {minX minY : ℤ} {p t : ℤ × ℤ} {img : Canvas}
    {used : Bool} (l1 l2 : List ((ℤ × ℤ) × TileOutcome)) (st : CollectState)
    (hp : inRect minX minY t p)
    (h1 : ∀ r ∈ l1, r.1 ≠ t) (h2 : ∀ r ∈ l2, r.1 ≠ t) :
    (((l1 ++ (t, some (img, used)) :: l2).foldl (collectStep minX minY) st).canvas) p =
      img (p.1 - (t.1 - minX) * TILE_SIZE, p.2 - (t.2 - minY) * TILE_SIZE) := by
  have hnot2 : ∀ r ∈ l2, ¬ inRect minX minY r.1 p := fun r hr hin =>
    h2 r hr (inRect_eq hin hp)
  rw [List.foldl_append, List.foldl_cons, collect_foldl_canvas_out l2 _ hnot2]
  exact collectStep_canvas_in _ hp

theorem collect_pixel_none {minX minY : ℤ} {p t : ℤ × ℤ}
    (l1 l2 : List ((ℤ × ℤ) × TileOutcome)) (st : CollectState)
    (hp : inRect minX minY t p)
    (h1 : ∀ r ∈ l1, r.1 ≠ t) (h2 : ∀ r ∈ l2, r.1 ≠ t) :
    (((l1 ++ (t, none) :: l2).foldl (collectStep minX minY) st).canvas) p =
      st.canvas p := by
  have hnot1 : ∀ r ∈ l1, ¬ inRect minX minY r.1 p := fun r hr hin =>
    h1 r hr (inRect_eq hin hp)
  have hnot2 : ∀ r ∈ l2, ¬ inRect minX minY r.1 p := fun r hr hin =>
    h2 r hr (inRect_eq hin hp)
  rw [List.foldl_append, List.foldl_cons, collect_foldl_canvas_out l2 _ hnot2]
  have : (collectStep minX minY ((l1.foldl (collectStep minX minY) st)) (t, none)).canvas =
      ((l1.foldl (collectStep minX minY) st)).canvas := rfl
  rw [this, collect_foldl_canvas_out l1 _ hnot1]

/-- Split a mapped completion order around one tile. -/
theorem order_split {order tiles : List (ℤ × ℤ)} {t : ℤ × ℤ}
    (hperm : order.Perm tiles) (hnd : tiles.Nodup) (ht : t ∈ tiles) :
    ∃ l1 l2, order = l1 ++ t :: l2 ∧ (∀ u ∈ l1, u ≠ t) ∧ (∀ u ∈ l2, u ≠ t) := by
  have htord : t ∈ order := hperm.mem_iff.mpr ht
  obtain ⟨l1, l2, rfl⟩ := List.append_of_mem htord
  have hndo : (l1 ++ t :: l2).Nodup := hperm.nodup_iff.mpr hnd
  have h1 := List.Nodup.not_mem (List.Nodup.of_append_right hndo)
  have h2 : t ∉ l1 := by
    intro hmem
    exact (List.disjoint_of_nodup_append hndo) hmem (List.mem_cons_self _ _)
  refine ⟨l1, l2, rfl, ?_, ?_⟩
  · intro u hu he
    exact h2 (he ▸ hu)
  · intro u hu he
    exact h1 (he ▸ hu)

/-- At zoom 0 every bounding box clamps to the single tile `(0, 0)`. -/
theorem get_tiles_zoom0 (a b c d : ℝ) : get_tiles_in_bbox a b c d 0 = [(0, 0)] := by
  rw [get_tiles_eq]
  simp only [tile_bounds, pow_zero, clampBound_one]
  rfl

/-- C1: for every run over a computed tile range, the allocated canvas
measures `(maxX - minX + 1) * TILE_SIZE` by `(maxY - minY + 1) * TILE_SIZE`
pixels where the minima and maxima are the clamped range bounds; the tile
list has no duplicates; the rectangles of distinct tiles never overlap; and
in a run where every unit of work succeeds, every pixel of the rectangle
with top-left corner `((x - minX) * TILE_SIZE, (y - minY) * TILE_SIZE)`
holds exactly the bitmap of tile `(x, y)` — each region is written at most
once, whatever the completion order. -/
theorem C1_canvas_coverage (min_lat max_lat min_lon max_lon : ℝ) (zoom : ℕ)
    (tiles order : List (ℤ × ℤ)) (minX minY : ℤ) (f : ℤ × ℤ → Canvas × Bool)
    (htiles : tiles = get_tiles_in_bbox min_lat max_lat min_lon max_lon zoom)
    (hminX : minX = listMinInt (tiles.map Prod.fst))
    (hminY : minY = listMinInt (tiles.map Prod.snd))
    (hperm : order.Perm tiles) :
    canvasSize min_lat max_lat min_lon max_lon zoom =
      (((tile_bounds min_lat max_lat min_lon max_lon zoom).2.1 -
          (tile_bounds min_lat max_lat min_lon max_lon zoom).1 + 1) * TILE_SIZE,
       ((tile_bounds min_lat max_lat min_lon max_lon zoom).2.2.2 -
          (tile_bounds min_lat max_lat min_lon max_lon zoom).2.2.1 + 1) * TILE_SIZE) ∧
    tiles.Nodup ∧
    (∀ t ∈ tiles, ∀ u ∈ tiles, t ≠ u →
      ∀ p : ℤ × ℤ, ¬(inRect minX minY t p ∧ inRect minX minY u p)) ∧
    (∀ t ∈ tiles, ∀ p : ℤ × ℤ, inRect minX minY t p →
      (collectRun minX minY (order.map fun u => (u, some (f u)))).canvas p =
        (f t).1 (p.1 - (t.1 - minX) * TILE_SIZE, p.2 - (t.2 - minY) * TILE_SIZE)) := by
  obtain ⟨hb0, hb1, hb2, hb3, hb4, hb5⟩ :=
    tile_bounds_spec min_lat max_lat min_lon max_lon zoom
  have htl : tiles = tileList (tile_bounds min_lat max_lat min_lon max_lon zoom).1
      (tile_bounds min_lat max_lat min_lon max_lon zoom).2.1
      (tile_bounds min_lat max_lat min_lon max_lon zoom).2.2.1
      (tile_bounds min_lat max_lat min_lon max_lon zoom).2.2.2 := by
    rw [htiles, get_tiles_eq]
  have hnd : tiles.Nodup := htl ▸ tileList_nodup _ _ _ _
  refine ⟨?_, hnd, ?_, ?_⟩
  · simp only [canvasSize, get_tiles_eq]
    rw [tiles_map_fst_min hb1 hb4, tiles_map_fst_max hb1 hb4,
        tiles_map_snd_min hb1 hb4, tiles_map_snd_max hb1 hb4]
  · intro t _ u _ hne p hboth
    exact hne (inRect_eq hboth.1 hboth.2)
  · intro t ht p hp
    obtain ⟨l1, l2, horder, hl1, hl2⟩ := order_split hperm hnd ht
    have hmap : order.map (fun u => (u, (some (f u) : TileOutcome))) =
        (l1.map fun u => (u, some (f u))) ++
          (t, some ((f t).1, (f t).2)) :: (l2.map fun u => (u, some (f u))) := by
      rw [horder, List.map_append, List.map_cons]
    rw [collectRun, hmap]
    exact collect_pixel_some _ _ _ hp
      (by
        intro r hr
        obtain ⟨u, hu, rfl⟩ := List.mem_map.mp hr
        exact hl1 u hu)
      (by
        intro r hr
        obtain ⟨u, hu, rfl⟩ := List.mem_map.mp hr
        exact hl2 u hu)

/-- Witness for C1 at a concrete input: at zoom 0 the tile range is the
single tile `(0, 0)`, the bounds are all zero, and a one-element run writes
that tile's bitmap over the whole canvas square. -/
theorem C1_canvas_coverage_witness :
    (([((0 : ℤ), (0 : ℤ))] : List (ℤ × ℤ)) = get_tiles_in_bbox 1 2 3 4 0) ∧
    ((0 : ℤ) = listMinInt (([((0 : ℤ), (0 : ℤ))] : List (ℤ × ℤ)).map Prod.fst)) ∧
    ((0 : ℤ) = listMinInt (([((0 : ℤ), (0 : ℤ))] : List (ℤ × ℤ)).map Prod.snd)) ∧
    (([((0 : ℤ), (0 : ℤ))] : List (ℤ × ℤ)).Perm [((0 : ℤ), (0 : ℤ))]) ∧
    (canvasSize 1 2 3 4 0 =
      (((tile_bounds 1 2 3 4 0).2.1 - (tile_bounds 1 2 3 4 0).1 + 1) * TILE_SIZE,
       ((tile_bounds 1 2 3 4 0).2.2.2 - (tile_bounds 1 2 3 4 0).2.2.1 + 1) * TILE_SIZE) ∧
     ([((0 : ℤ), (0 : ℤ))] : List (ℤ × ℤ)).Nodup ∧
     (∀ t ∈ ([((0 : ℤ), (0 : ℤ))] : List (ℤ × ℤ)),
        ∀ u ∈ ([((0 : ℤ), (0 : ℤ))] : List (ℤ × ℤ)), t ≠ u →
        ∀ p : ℤ × ℤ, ¬(inRect 0 0 t p ∧ inRect 0 0 u p)) ∧
     (∀ t ∈ ([((0 : ℤ), (0 : ℤ))] : List (ℤ × ℤ)), ∀ p : ℤ × ℤ, inRect 0 0 t p →
        (collectRun 0 0 ([((0 : ℤ), (0 : ℤ))].map fun u =>
          (u, some ((fun _ => (initCanvas, false) :
            ℤ × ℤ → Canvas × Bool) u)))).canvas p =
          ((fun _ => (initCanvas, false) : ℤ × ℤ → Canvas × Bool) t).1
            (p.1 - (t.1 - 0) * TILE_SIZE, p.2 - (t.2 - 0) * TILE_SIZE))) :=
  ⟨(get_tiles_zoom0 1 2 3 4).symm, rfl, rfl, List.Perm.refl _,
   C1_canvas_coverage 1 2 3 4 0 [((0 : ℤ), (0 : ℤ))] [((0 : ℤ), (0 : ℤ))] 0 0
     (fun _ => (initCanvas, false)) (get_tiles_zoom0 1 2 3 4).symm rfl rfl
     (List.Perm.refl _)⟩

/-! ## The custom_found counter and the failure log -/

/-- Whether one unit of work's outcome bumps the `custom_found` counter
(line 176-177): it must have completed without exception and carry
`custom_used = True`. -/
def usedFlag : TileOutcome → Bool
  | some (_, true) => true
  | _ => false

theorem collectStep_custom_found (minX minY : ℤ) (st : CollectState)
    (r : (ℤ × ℤ) × TileOutcome) :
    (collectStep minX minY st r).custom_found =
      st.custom_found + (if usedFlag r.2 then 1 else 0) := by
  obtain ⟨t, out⟩ := r
  match out with
  | none => rfl
  | some (img, true) => rfl
  | some (img, false) => rfl

theorem collect_foldl_custom_found (minX minY : ℤ)
    (rs : List ((ℤ × ℤ) × TileOutcome)) (st : CollectState) :
    (rs.foldl (collectStep minX minY) st).custom_found =
      st.custom_found + (rs.filter fun r => usedFlag r.2).length := by
  induction rs generalizing st with
  | nil => rfl
  | cons r rs ih =>
    rw [List.foldl_cons, ih, collectStep_custom_found]
    by_cases h : usedFlag r.2
    · simp [List.filter_cons, h]
      omega
    · simp [List.filter_cons, h]

theorem collectStep_log_mono {minX minY : ℤ} {st : CollectState}
    {t : ℤ × ℤ} (r : (ℤ × ℤ) × TileOutcome) (h : t ∈ st.failed_log) :
    t ∈ (collectStep minX minY st r).failed_log := by
  obtain ⟨u, out⟩ := r
  match out with
  | none => exact List.mem_append_left _ h
  | some (img, used) => exact h

theorem collect_foldl_log_mono {minX minY : ℤ} {t : ℤ × ℤ}
    (rs : List ((ℤ × ℤ) × TileOutcome)) (st : CollectState)
    (h : t ∈ st.failed_log) :
    t ∈ (rs.foldl (collectStep minX minY) st).failed_log := by
  induction rs generalizing st with
  | nil => exact h
  | cons r rs ih => exact ih _ (collectStep_log_mono r h)

theorem collect_foldl_log_of_mem {minX minY : ℤ} {t : ℤ × ℤ}
    (rs : List ((ℤ × ℤ) × TileOutcome)) (st : CollectState)
    (h : (t, (none : TileOutcome)) ∈ rs) :
    t ∈ (rs.foldl (collectStep minX minY) st).failed_log := by
  induction rs generalizing st with
  | nil => cases h
  | cons r rs ih =>
    rcases List.mem_cons.mp h with h | h
    · subst h
      rw [List.foldl_cons]
      refine collect_foldl_log_mono rs _ ?_
      exact List.mem_append_right _ (List.mem_cons_self _ _)
    · exact ih _ h

/-- C2: in every run, a tile whose unit of work raises is caught at the
collection point: its coordinate is logged, its canvas region keeps the
initial black fill, the `custom_found` counter counts only the successfully
flagged tiles (so it excludes the failed one), and the run still reaches the
final save: `mainRun` returns `Except.ok`. -/
theorem C2_tile_failure_not_fatal (min_lat max_lat min_lon max_lon : ℝ) (zoom : ℕ)
    (tiles order : List (ℤ × ℤ)) (minX minY : ℤ) (f : ℤ × ℤ → TileOutcome)
    (t0 : ℤ × ℤ)
    (htiles : tiles = get_tiles_in_bbox min_lat max_lat min_lon max_lon zoom)
    (hminX : minX = listMinInt (tiles.map Prod.fst))
    (hminY : minY = listMinInt (tiles.map Prod.snd))
    (hperm : order.Perm tiles)
    (ht0 : t0 ∈ tiles) (hf : f t0 = none) :
    t0 ∈ (collectRun minX minY (order.map fun u => (u, f u))).failed_log ∧
    (∀ p : ℤ × ℤ, inRect minX minY t0 p →
      (collectRun minX minY (order.map fun u => (u, f u))).canvas p = initCanvas p) ∧
    (collectRun minX minY (order.map fun u => (u, f u))).custom_found =
      (order.filter fun u => usedFlag (f u)).length ∧
    usedFlag (f t0) = false ∧
    mainRun min_lat max_lat min_lon max_lon zoom order f =
      Except.ok (collectRun minX minY (order.map fun u => (u, f u))) := by
  have hnd : tiles.Nodup := by
    rw [htiles, get_tiles_eq]
    exact tileList_nodup _ _ _ _
  have ht0o : t0 ∈ order := hperm.mem_iff.mpr ht0
  refine ⟨?_, ?_, ?_, ?_, ?_⟩
  · refine collect_foldl_log_of_mem _ _ ?_
    refine List.mem_map.mpr ⟨t0, ht0o, ?_⟩
    rw [hf]
  · intro p hp
    obtain ⟨l1, l2, horder, hl1, hl2⟩ := order_split hperm hnd ht0
    have hmap : order.map (fun u => (u, f u)) =
        (l1.map fun u => (u, f u)) ++ (t0, (none : TileOutcome)) ::
          (l2.map fun u => (u, f u)) := by
      rw [horder, List.map_append, List.map_cons, hf]
    rw [collectRun, hmap]
    exact collect_pixel_none _ _ _ hp
      (by
        intro r hr
        obtain ⟨u, hu, rfl⟩ := List.mem_map.mp hr
        exact hl1 u hu)
      (by
        intro r hr
        obtain ⟨u, hu, rfl⟩ := List.mem_map.mp hr
        exact hl2 u hu)
  · rw [collectRun, collect_foldl_custom_found,
        List.filter_map, List.length_map]
    have hfun : ((fun r => usedFlag r.2) ∘ fun (u : ℤ × ℤ) => (u, f u)) =
        fun u => usedFlag (f u) := by
      funext u
      rfl
    rw [hfun]
    exact Nat.zero_add _
  · rw [hf]
    rfl
  · have hne : get_tiles_in_bbox min_lat max_lat min_lon max_lon zoom ≠ [] :=
      get_tiles_in_bbox_ne_nil min_lat max_lat min_lon max_lon zoom
    simp only [mainRun, if_neg hne]
    rw [hminX, hminY, htiles]

/-- Witness for C2 at a concrete input: one tile, and its unit of work
raises; the run is still `Except.ok`, the region stays black, the counter
is zero. -/
theorem C2_tile_failure_not_fatal_witness :
    (([((0 : ℤ), (0 : ℤ))] : List (ℤ × ℤ)) = get_tiles_in_bbox 1 2 3 4 0) ∧
    ((0 : ℤ) = listMinInt (([((0 : ℤ), (0 : ℤ))] : List (ℤ × ℤ)).map Prod.fst)) ∧
    ((0 : ℤ) = listMinInt (([((0 : ℤ), (0 : ℤ))] : List (ℤ × ℤ)).map Prod.snd)) ∧
    (([((0 : ℤ), (0 : ℤ))] : List (ℤ × ℤ)).Perm [((0 : ℤ), (0 : ℤ))]) ∧
    (((0 : ℤ), (0 : ℤ)) ∈ ([((0 : ℤ), (0 : ℤ))] : List (ℤ × ℤ))) ∧
    (((fun _ => none) : ℤ × ℤ → TileOutcome) ((0 : ℤ), (0 : ℤ)) = none) ∧
    (((0 : ℤ), (0 : ℤ)) ∈ (collectRun 0 0 ([((0 : ℤ), (0 : ℤ))].map fun u =>
        (u, ((fun _ => none) : ℤ × ℤ → TileOutcome) u))).failed_log ∧
     (∀ p : ℤ × ℤ, inRect 0 0 ((0 : ℤ), (0 : ℤ)) p →
       (collectRun 0 0 ([((0 : ℤ), (0 : ℤ))].map fun u =>
         (u, ((fun _ => none) : ℤ × ℤ → TileOutcome) u))).canvas p = initCanvas p) ∧
     (collectRun 0 0 ([((0 : ℤ), (0 : ℤ))].map fun u =>
        (u, ((fun _ => none) : ℤ × ℤ → TileOutcome) u))).custom_found =
       ([((0 : ℤ), (0 : ℤ))].filter fun u =>
         usedFlag (((fun _ => none) : ℤ × ℤ → TileOutcome) u)).length ∧
     usedFlag (((fun _ => none) : ℤ × ℤ → TileOutcome) ((0 : ℤ), (0 : ℤ))) = false ∧
     mainRun 1 2 3 4 0 [((0 : ℤ), (0 : ℤ))] (fun _ => none) =
       Except.ok (collectRun 0 0 ([((0 : ℤ), (0 : ℤ))].map fun u =>
         (u, ((fun _ => none) : ℤ × ℤ → TileOutcome) u)))) :=
  ⟨(get_tiles_zoom0 1 2 3 4).symm, rfl, rfl, List.Perm.refl _,
   List.mem_cons_self _ _, rfl,
   C2_tile_failure_not_fatal 1 2 3 4 0 [((0 : ℤ), (0 : ℤ))] [((0 : ℤ), (0 : ℤ))]
     0 0 (fun _ => none) ((0 : ℤ), (0 : ℤ)) (get_tiles_zoom0 1 2 3 4).symm rfl rfl
     (List.Perm.refl _) (List.mem_cons_self _ _) rfl⟩

/-! ## Cache-aware fetch with retry
(src/main.py, get_tile_image lines 46-69, get_tile_image_no_cache lines 71-87)

The network is modelled by a finite trace of observable behaviors of
`requests.get`; the bitmap decoder `Image.open` is an arbitrary function of
the response bytes.  The Python loop is `while True`; its infinite behavior
is captured by quantifying over traces of every length: on a trace with no
200 the loop has consumed the whole trace and produced nothing — it neither
returned nor raised within any finite number of attempts. -/

/-- Bytes of an HTTP response body. -/
abbrev Bytes := List ℕ

/-- One observable behavior of `requests.get`: a response carrying a status
code and a body, or a raised `requests.exceptions.RequestException`. -/
inductive NetEvent where
  | resp (status : ℕ) (content : Bytes)
  | exn
deriving DecidableEq

/-- Whether an event is an HTTP 200 response. -/
def isOk200 : NetEvent → Bool
  | NetEvent.resp 200 _ => true
  | _ => false

/-- State threaded through a fetch: the on-disk tile cache (one entry per
path), the number of issued `requests.get` calls, and the total seconds
spent in `time.sleep`. -/
structure FetchState where
  cache : List (String × Bytes)
  netCalls : ℕ
  slept : ℕ
deriving DecidableEq

/-- `cache_path.exists()` plus `Image.open(cache_path)` (lines 47-50): the
bytes stored at a path, if any. -/
def cacheLookup (cache : List (String × Bytes)) (path : String) : Option Bytes :=
  (cache.find? fun e => e.1 == path).map Prod.snd

/-- The `while True:` retry loop shared by both fetchers (lines 52-69 and
73-87): on a 200 response, persist the raw body at the cache path when
`writeCache` is set (creating parent directories, which the cache map
subsumes) and return the bitmap decoded from those same bytes; on a 429, on
any other non-200 status and on a `RequestException`, sleep `delay` seconds
and retry.  There is no retry cap and no raise: an exhausted trace yields
`none`. -/
def retry_loop {α : Type} (decode : Bytes → α) (writeCache : Bool) (path : String)
    (delay : ℕ) : List NetEvent → FetchState → Option α × FetchState
  | [], st => (none, st)
  | NetEvent.resp status content :: rest, st =>
    let st1 : FetchState := { st with netCalls := st.netCalls + 1 }
    if status = 200 then
      (some (decode content),
       if writeCache then { st1 with cache := (path, content) :: st1.cache } else st1)
    else
      retry_loop decode writeCache path delay rest { st1 with slept := st1.slept + delay }
  | NetEvent.exn :: rest, st =>
    let st1 : FetchState := { st with netCalls := st.netCalls + 1 }
    retry_loop decode writeCache path delay rest { st1 with slept := st1.slept + delay }

/-- `get_tile_image(url, cache_path, headers, timeout, delay)` (lines
46-69): if a file exists at the cache path, decode and return it — no
network call; otherwise enter the retry loop with persistence enabled. -/
def get_tile_image {α : Type} (decode : Bytes → α) (url path : String) (delay : ℕ)
    (events : List NetEvent) (st : FetchState) : Option α × FetchState :=
  match cacheLookup st.cache path with
  | some content => (some (decode content), st)
  | none => retry_loop decode true path delay events st

/-- `get_tile_image_no_cache(url, headers, timeout, delay)` (lines 71-87):
the identical retry loop with no disk pre-check and no persistence. -/
def get_tile_image_no_cache {α : Type} (decode : Bytes → α) (delay : ℕ)
    (events : List NetEvent) (st : FetchState) : Option α × FetchState :=
  retry_loop decode false "" delay events st

theorem retry_loop_fail_step {α : Type} (decode : Bytes → α) (wc : Bool)
    (path : String) (delay : ℕ) (e : NetEvent) (rest : List NetEvent)
    (st : FetchState) (h : isOk200 e = false) :
    retry_loop decode wc path delay (e :: rest) st =
      retry_loop decode wc path delay rest
        { st with netCalls := st.netCalls + 1, slept := st.slept + delay } := by
  match e with
  | NetEvent.exn => rfl
  | NetEvent.resp status content =>
    have hs : status ≠ 200 := by
      intro hc
      subst hc
      simp [isOk200] at h
    simp only [retry_loop, if_neg hs]

theorem retry_loop_only_200 {α : Type} (decode : Bytes → α) (wc : Bool)
    (path : String) (delay : ℕ) (events : List NetEvent) (st : FetchState)
    (a : α) (st2 : FetchState)
    (h : retry_loop decode wc path delay events st = (some a, st2)) :
    ∃ content, NetEvent.resp 200 content ∈ events ∧ a = decode content := by
  induction events generalizing st with
  | nil => exact absurd (congrArg Prod.fst h) (by simp [retry_loop])
  | cons e rest ih =>
    match e with
    | NetEvent.exn =>
      obtain ⟨c, hc, ha⟩ := ih _ h
      exact ⟨c, List.mem_cons_of_mem _ hc, ha⟩
    | NetEvent.resp status content =>
      by_cases hs : status = 200
      · subst hs
        refine ⟨content, List.mem_cons_self _ _, ?_⟩
        have := congrArg Prod.fst h
        simp only [retry_loop, if_pos rfl] at this
        exact (Option.some.injEq _ _ ▸ this).symm
      · rw [show retry_loop decode wc path delay (NetEvent.resp status content :: rest) st =
              retry_loop decode wc path delay rest
                { st with netCalls := st.netCalls + 1, slept := st.slept + delay } from by
            simp only [retry_loop, if_neg hs]] at h
        obtain ⟨c, hc, ha⟩ := ih _ h
        exact ⟨c, List.mem_cons_of_mem _ hc, ha⟩

theorem retry_loop_all_fail {α : Type} (decode : Bytes → α) (wc : Bool)
    (path : String) (delay : ℕ) (events : List NetEvent) (st : FetchState)
    (h : ∀ e ∈ events, isOk200 e = false) :
    retry_loop decode wc path delay events st =
      (none, { st with netCalls := st.netCalls + events.length,
                       slept := st.slept + delay * events.length }) := by
  induction events generalizing st with
  | nil => rfl
  | cons e rest ih =>
    rw [retry_loop_fail_step _ _ _ _ _ _ _ (h e (List.mem_cons_self _ _)),
        ih _ (fun u hu => h u (List.mem_cons_of_mem _ hu))]
    simp only [List.length_cons, Prod.mk.injEq, true_and]
    congr 1
    · omega
    · ring

/-- C4: both fetchers run one and the same retry loop (on a cache miss for
the cached one); the loop returns a bitmap only upon an HTTP 200 response;
on a 429, on any other non-200 status, and on a transport exception it
sleeps the fixed delay and retries; and there is no retry cap: on a trace
of failures of any length it has issued one network call and slept the
delay once per failure, has returned nothing and — being a total function
with no exception outcome — has raised nothing. -/
theorem C4_retry_only_200_unbounded {α : Type} (decode : Bytes → α) (delay : ℕ) :
    (∀ (url path : String) (events : List NetEvent) (st : FetchState),
      cacheLookup st.cache path = none →
      get_tile_image decode url path delay events st =
        retry_loop decode true path delay events st) ∧
    (∀ (events : List NetEvent) (st : FetchState),
      get_tile_image_no_cache decode delay events st =
        retry_loop decode false "" delay events st) ∧
    (∀ (wc : Bool) (path : String) (events : List NetEvent) (st st2 : FetchState)
       (a : α),
      retry_loop decode wc path delay events st = (some a, st2) →
      ∃ content, NetEvent.resp 200 content ∈ events ∧ a = decode content) ∧
    (∀ (wc : Bool) (path : String) (e : NetEvent) (rest : List NetEvent)
       (st : FetchState),
      isOk200 e = false →
      retry_loop decode wc path delay (e :: rest) st =
        retry_loop decode wc path delay rest
          { st with netCalls := st.netCalls + 1, slept := st.slept + delay }) ∧
    (∀ (wc : Bool) (path : String) (events : List NetEvent) (st : FetchState),
      (∀ e ∈ events, isOk200 e = false) →
      retry_loop decode wc path delay events st =
        (none, { st with netCalls := st.netCalls + events.length,
                         slept := st.slept + delay * events.length })) := by
  refine ⟨?_, ?_, ?_, ?_, ?_⟩
  · intro url path events st hmiss
    simp only [get_tile_image, hmiss]
  · intro events st
    rfl
  · intro wc path events st st2 a h
    exact retry_loop_only_200 decode wc path delay events st a st2 h
  · intro wc path e rest st h
    exact retry_loop_fail_step decode wc path delay e rest st h
  · intro wc path events st h
    exact retry_loop_all_fail decode wc path delay events st h

/-- Witness for C4 at a concrete input: a trace of one transport exception
followed by a 404 and a 429 is consumed entirely, returns nothing, issues
three network calls and sleeps three delays. -/
theorem C4_retry_only_200_unbounded_witness :
    (∀ e ∈ [NetEvent.exn, NetEvent.resp 404 [], NetEvent.resp 429 []],
      isOk200 e = false) ∧
    retry_loop (id : Bytes → Bytes) false "" 5
        [NetEvent.exn, NetEvent.resp 404 [], NetEvent.resp 429 []] ⟨[], 0, 0⟩ =
      (none, { cache := [], netCalls := 0 + 3, slept := 0 + 5 * 3 }) :=
  ⟨by decide,
   (C4_retry_only_200_unbounded (id : Bytes → Bytes) 5).2.2.2.2 false ""
     [NetEvent.exn, NetEvent.resp 404 [], NetEvent.resp 429 []] ⟨[], 0, 0⟩
     (by decide)⟩

theorem cacheLookup_insert (cache : List (String × Bytes)) (path : String)
    (content : Bytes) :
    cacheLookup ((path, content) :: cache) path = some content := by
  simp [cacheLookup, List.find?_cons_of_pos]

theorem get_tile_image_miss_200 {α : Type} (decode : Bytes → α) (url path : String)
    (delay : ℕ) (st : FetchState) (hm : cacheLookup st.cache path = none)
    (content : Bytes) (rest : List NetEvent) :
    get_tile_image decode url path delay (NetEvent.resp 200 content :: rest) st =
      (some (decode content),
       { st with netCalls := st.netCalls + 1,
                 cache := (path, content) :: st.cache }) := by
  simp only [get_tile_image, hm]
  rfl

/-- C3: if the cache file exists, the cached fetch decodes and returns it
with no network request and no state change; on a miss whose first attempt
is an HTTP 200, it persists the raw body to the cache path before decoding
and returning those same bytes; consequently two calls for the same key
perform exactly one network call in total, and the second call returns
pixel-identical content to the first. -/
theorem C3_cache_idempotent {α : Type} (decode : Bytes → α) (url path : String)
    (delay : ℕ) (st : FetchState) :
    (∀ content, cacheLookup st.cache path = some content →
      ∀ events, get_tile_image decode url path delay events st =
        (some (decode content), st)) ∧
    (cacheLookup st.cache path = none →
      ∀ content rest, get_tile_image decode url path delay
          (NetEvent.resp 200 content :: rest) st =
        (some (decode content),
         { st with netCalls := st.netCalls + 1,
                   cache := (path, content) :: st.cache })) ∧
    (cacheLookup st.cache path = none →
      ∀ content rest events2,
        (get_tile_image decode url path delay
            (NetEvent.resp 200 content :: rest) st).1 = some (decode content) ∧
        (get_tile_image decode url path delay
            (NetEvent.resp 200 content :: rest) st).2.netCalls = st.netCalls + 1 ∧
        get_tile_image decode url path delay events2
            ((get_tile_image decode url path delay
              (NetEvent.resp 200 content :: rest) st).2) =
          (some (decode content),
           (get_tile_image decode url path delay
             (NetEvent.resp 200 content :: rest) st).2)) := by
  refine ⟨?_, ?_, ?_⟩
  · intro content hc events
    simp only [get_tile_image, hc]
  · intro hm content rest
    exact get_tile_image_miss_200 decode url path delay st hm content rest
  · intro hm content rest events2
    rw [get_tile_image_miss_200 decode url path delay st hm content rest]
    refine ⟨rfl, rfl, ?_⟩
    simp only [get_tile_image, cacheLookup_insert]

/-- Witness for C3 at a concrete input: empty cache, one 200 carrying
`[1, 2, 3]`; the second call returns the same bytes from disk and the call
counter stays at one. -/
theorem C3_cache_idempotent_witness :
    cacheLookup ([] : List (String × Bytes)) "p" = none ∧
    ((get_tile_image (id : Bytes → Bytes) "u" "p" 5
        [NetEvent.resp 200 [1, 2, 3]] ⟨[], 0, 0⟩).1 = some [1, 2, 3] ∧
     (get_tile_image (id : Bytes → Bytes) "u" "p" 5
        [NetEvent.resp 200 [1, 2, 3]] ⟨[], 0, 0⟩).2.netCalls = 0 + 1 ∧
     get_tile_image (id : Bytes → Bytes) "u" "p" 5 []
         ((get_tile_image (id : Bytes → Bytes) "u" "p" 5
           [NetEvent.resp 200 [1, 2, 3]] ⟨[], 0, 0⟩).2) =
       (some [1, 2, 3],
        (get_tile_image (id : Bytes → Bytes) "u" "p" 5
          [NetEvent.resp 200 [1, 2, 3]] ⟨[], 0, 0⟩).2)) :=
  ⟨rfl, (C3_cache_idempotent (id : Bytes → Bytes) "u" "p" 5 ⟨[], 0, 0⟩).2.2 rfl
    [1, 2, 3] [] []⟩

/-! ## Per-tile compositing
(src/main.py, process_and_composite_tile, lines 89-118)

The background half (cache fetch, gray placeholder, RGB conversion and
resize) is abstracted into an already-normalised background canvas; the
overlay half — the mode test setting `custom_tile_used`, the unconditional
RGBA conversion, the conditional resize and the masked paste — is modelled
below.  PIL's `Image.paste(overlay, (0, 0), overlay)` with an RGBA mask is
per-pixel straight alpha-over-opaque blending with the overlay's own alpha
channel as the mask. -/

/-- PIL image modes relevant to the overlay branch (line 108). -/
inductive PILMode where
  | RGBA
  | LA
  | P
  | RGB
  | L
deriving DecidableEq

/-- One RGBA pixel. -/
structure RGBA where
  r : ℕ
  g : ℕ
  b : ℕ
  a : ℕ
deriving DecidableEq

/-- The fetched overlay bitmap: its mode, whether `'transparency' in
overlay.info` holds, its pixel size, and its pixels after
`convert('RGBA')` — both branches of lines 108-112 perform the identical
conversion. -/
structure Overlay where
  mode : PILMode
  transparencyInfo : Bool
  size : ℕ × ℕ
  pixels : ℤ × ℤ → RGBA

/-- The test of line 108:
`overlay.mode in ('RGBA', 'LA') or (overlay.mode == 'P' and 'transparency' in overlay.info)`. -/
def hasAlphaOrTransparency (o : Overlay) : Bool :=
  (o.mode == PILMode.RGBA || o.mode == PILMode.LA) ||
    (o.mode == PILMode.P && o.transparencyInfo)

/-- One channel of a masked paste:
`out = (overlay * alpha + background * (255 - alpha)) / 255`. -/
def blendChannel (ov bgc a : ℕ) : ℕ :=
  (ov * a + bgc * (255 - a)) / 255

/-- `bg.paste(overlay, (0, 0), overlay)` (line 116): per-pixel alpha blend
of the RGBA overlay over the opaque background, using the overlay's own
alpha channel as the blend mask. -/
def pasteMask (bg : Canvas) (ov : ℤ × ℤ → RGBA) : Canvas :=
  fun p =>
    { r := blendChannel (ov p).r (bg p).r (ov p).a,
      g := blendChannel (ov p).g (bg p).g (ov p).a,
      b := blendChannel (ov p).b (bg p).b (ov p).a }

/-- Lines 106-117, the overlay half of `process_and_composite_tile`: set
`custom_tile_used` exactly by the mode test, convert to RGBA either way,
resize when the size differs from `(TILE_SIZE, TILE_SIZE)` (`resize`
abstracts PIL Lanczos resampling) and alpha-composite over the background;
with no overlay the background is returned unchanged and the flag stays
false. -/
def compositeOverlay (resize : (ℤ × ℤ → RGBA) → ℤ × ℤ → RGBA)
    (bg : Canvas) (overlay : Option Overlay) : Canvas × Bool :=
  match overlay with
  | none => (bg, false)
  | some o =>
    let custom_tile_used := hasAlphaOrTransparency o
    let px := if o.size ≠ (TILE_SIZE, TILE_SIZE) then resize o.pixels else o.pixels
    (pasteMask bg px, custom_tile_used)

theorem blendChannel_opaque (c b : ℕ) : blendChannel c b 255 = c := by
  simp [blendChannel]

theorem blendChannel_transparent (c b : ℕ) : blendChannel c b 0 = b := by
  simp [blendChannel]

/-- C8: compositing blends the overlay over the background with the
overlay's own alpha as the per-pixel mask; a fully-opaque normalised
overlay replaces the background with the overlay alone, and a
fully-transparent one leaves the background alone. -/
theorem C8_composite_opaque_transparent
    (resize : (ℤ × ℤ → RGBA) → ℤ × ℤ → RGBA) (bg : Canvas) (o : Overlay)
    (px : ℤ × ℤ → RGBA)
    (hpx : px = if o.size ≠ (TILE_SIZE, TILE_SIZE) then resize o.pixels else o.pixels) :
    ((compositeOverlay resize bg (some o)).1 = pasteMask bg px) ∧
    ((∀ p, (px p).a = 255) →
      (compositeOverlay resize bg (some o)).1 =
        fun p => { r := (px p).r, g := (px p).g, b := (px p).b }) ∧
    ((∀ p, (px p).a = 0) → (compositeOverlay resize bg (some o)).1 = bg) := by
  have heq : (compositeOverlay resize bg (some o)).1 = pasteMask bg px := by
    rw [hpx]
    rfl
  refine ⟨heq, ?_, ?_⟩
  · intro ha
    rw [heq]
    funext p
    simp [pasteMask, ha p, blendChannel_opaque]
  · intro ha
    rw [heq]
    funext p
    simp [pasteMask, ha p, blendChannel_transparent]

/-- Witness for C8 at a concrete input: a tile-sized constant overlay.
Fully opaque, the composite is the overlay's color everywhere; with its
alpha zeroed, the composite is the background. -/
theorem C8_composite_opaque_transparent_witness :
    ((fun _ => RGBA.mk 7 8 9 255) =
      if (Overlay.mk PILMode.RGBA false (TILE_SIZE, TILE_SIZE)
            (fun _ => RGBA.mk 7 8 9 255)).size ≠ (TILE_SIZE, TILE_SIZE) then
        id (Overlay.mk PILMode.RGBA false (TILE_SIZE, TILE_SIZE)
            (fun _ => RGBA.mk 7 8 9 255)).pixels
      else (Overlay.mk PILMode.RGBA false (TILE_SIZE, TILE_SIZE)
            (fun _ => RGBA.mk 7 8 9 255)).pixels) ∧
    (∀ p : ℤ × ℤ, ((fun (_ : ℤ × ℤ) => RGBA.mk 7 8 9 255) p).a = 255) ∧
    (compositeOverlay id initCanvas
        (some (Overlay.mk PILMode.RGBA false (TILE_SIZE, TILE_SIZE)
          (fun _ => RGBA.mk 7 8 9 255)))).1 =
      fun p => { r := ((fun (_ : ℤ × ℤ) => RGBA.mk 7 8 9 255) p).r,
                 g := ((fun (_ : ℤ × ℤ) => RGBA.mk 7 8 9 255) p).g,
                 b := ((fun (_ : ℤ × ℤ) => RGBA.mk 7 8 9 255) p).b } :=
  ⟨by simp, fun _ => rfl,
   (C8_composite_opaque_transparent id initCanvas
      (Overlay.mk PILMode.RGBA false (TILE_SIZE, TILE_SIZE)
        (fun _ => RGBA.mk 7 8 9 255))
      (fun _ => RGBA.mk 7 8 9 255) (by simp)).2.1 (fun _ => rfl)⟩

/-- C9: the `custom_tile_used` flag of a fetched overlay is true exactly
when the overlay's mode is RGBA or LA, or is P with a transparency entry in
its metadata; and whatever the flag, the returned bitmap is the 4-channel
conversion of the overlay composited over the background. -/
theorem C9_overlay_flag_iff_alpha
    (resize : (ℤ × ℤ → RGBA) → ℤ × ℤ → RGBA) (bg : Canvas) (o : Overlay) :
    ((compositeOverlay resize bg (some o)).2 = true ↔
      (o.mode = PILMode.RGBA ∨ o.mode = PILMode.LA ∨
        (o.mode = PILMode.P ∧ o.transparencyInfo = true))) ∧
    ((compositeOverlay resize bg (some o)).1 =
      pasteMask bg
        (if o.size ≠ (TILE_SIZE, TILE_SIZE) then resize o.pixels else o.pixels)) := by
  constructor
  · show hasAlphaOrTransparency o = true ↔ _
    unfold hasAlphaOrTransparency
    cases o.mode <;> simp
  · rfl

/-- C10: the flag ignores pixel values — an overlay already in RGBA or LA
mode whose every pixel is fully transparent still sets `custom_tile_used`,
its composite leaves the background unchanged, and the collection loop
still counts it into `custom_found`. -/
theorem C10_transparent_rgba_still_counted
    (resize : (ℤ × ℤ → RGBA) → ℤ × ℤ → RGBA) (bg : Canvas) (o : Overlay)
    (minX minY : ℤ) (t : ℤ × ℤ) (st : CollectState)
    (hmode : o.mode = PILMode.RGBA ∨ o.mode = PILMode.LA)
    (hsize : o.size = (TILE_SIZE, TILE_SIZE))
    (halpha : ∀ p, (o.pixels p).a = 0) :
    (compositeOverlay resize bg (some o)).2 = true ∧
    (compositeOverlay resize bg (some o)).1 = bg ∧
    (collectStep minX minY st
        (t, some ((compositeOverlay resize bg (some o)).1,
                  (compositeOverlay resize bg (some o)).2))).custom_found =
      st.custom_found + 1 := by
  have hflag : (compositeOverlay resize bg (some o)).2 = true := by
    show hasAlphaOrTransparency o = true
    rcases hmode with h | h <;> simp [hasAlphaOrTransparency, h]
  have hpx : (if o.size ≠ (TILE_SIZE, TILE_SIZE) then resize o.pixels else o.pixels) =
      o.pixels := by
    simp [hsize]
  have himg : (compositeOverlay resize bg (some o)).1 = bg := by
    have heq : (compositeOverlay resize bg (some o)).1 =
        pasteMask bg (if o.size ≠ (TILE_SIZE, TILE_SIZE) then resize o.pixels
          else o.pixels) := rfl
    rw [heq, hpx]
    funext p
    simp [pasteMask, halpha p, blendChannel_transparent]
  refine ⟨hflag, himg, ?_⟩
  rw [collectStep_custom_found, hflag]
  rfl

/-- Witness for C10 at a concrete input: a tile-sized RGBA overlay, all
pixels fully transparent. -/
theorem C10_transparent_rgba_still_counted_witness :
    ((Overlay.mk PILMode.RGBA false (TILE_SIZE, TILE_SIZE)
        (fun _ => RGBA.mk 1 2 3 0)).mode = PILMode.RGBA ∨
     (Overlay.mk PILMode.RGBA false (TILE_SIZE, TILE_SIZE)
        (fun _ => RGBA.mk 1 2 3 0)).mode = PILMode.LA) ∧
    ((Overlay.mk PILMode.RGBA false (TILE_SIZE, TILE_SIZE)
        (fun _ => RGBA.mk 1 2 3 0)).size = (TILE_SIZE, TILE_SIZE)) ∧
    (∀ p : ℤ × ℤ, ((Overlay.mk PILMode.RGBA false (TILE_SIZE, TILE_SIZE)
        (fun _ => RGBA.mk 1 2 3 0)).pixels p).a = 0) ∧
    ((compositeOverlay id initCanvas
        (some (Overlay.mk PILMode.RGBA false (TILE_SIZE, TILE_SIZE)
          (fun _ => RGBA.mk 1 2 3 0)))).2 = true ∧
     (compositeOverlay id initCanvas
        (some (Overlay.mk PILMode.RGBA false (TILE_SIZE, TILE_SIZE)
          (fun _ => RGBA.mk 1 2 3 0)))).1 = initCanvas ∧
     (collectStep 0 0 ⟨initCanvas, 0, 0, []⟩
        (((0 : ℤ), (0 : ℤ)),
         some ((compositeOverlay id initCanvas
            (some (Overlay.mk PILMode.RGBA false (TILE_SIZE, TILE_SIZE)
              (fun _ => RGBA.mk 1 2 3 0)))).1,
           (compositeOverlay id initCanvas
            (some (Overlay.mk PILMode.RGBA false (TILE_SIZE, TILE_SIZE)
              (fun _ => RGBA.mk 1 2 3 0)))).2))).custom_found = 0 + 1) :=
  ⟨Or.inl rfl, rfl, fun _ => rfl,
   C10_transparent_rgba_still_counted id initCanvas
     (Overlay.mk PILMode.RGBA false (TILE_SIZE, TILE_SIZE)
       (fun _ => RGBA.mk 1 2 3 0)) 0 0 ((0 : ℤ), (0 : ℤ))
     ⟨initCanvas, 0, 0, []⟩ (Or.inl rfl) rfl (fun _ => rfl)⟩

/-! ## Projection range (claim C7)

The Web-Mercator `y` involves `log (tan φ + 1 / cos φ)`, which for
`|φ| < π/2` equals `arsinh (tan φ)`; the numeric fact below pins it inside
`(-π, π)` for latitudes strictly between -85 and 85 degrees. -/

/-- The key numeric bound: `sinh π > 36 / π`.  (Numerically 11.5487 versus
11.4591; the proof goes through `exp π > e³ · 1.070796² > 23.0184` and
`exp (-π) < 1/20`.) -/
theorem sinh_pi_gt : 36 / Real.pi < Real.sinh Real.pi := by
  have hpi : (3.141592 : ℝ) < Real.pi := Real.pi_gt_d6
  have hpipos := Real.pi_pos
  have he1 : (2.7182818283 : ℝ) < Real.exp 1 := Real.exp_one_gt_d9
  have hq3 : Real.exp 1 ^ (3 : ℕ) = Real.exp 3 := by
    rw [← Real.exp_nat_mul]
    norm_num
  have hexp3 : (2.7182818283 : ℝ) ^ 3 < Real.exp 3 := by
    rw [← hq3]
    exact pow_lt_pow_left₀ he1 (by norm_num) (by norm_num)
  have hhalf : (1.070796 : ℝ) ≤ Real.exp 0.070796 := by
    have h := Real.add_one_le_exp (0.070796 : ℝ)
    linarith
  have hsq : Real.exp 0.070796 ^ (2 : ℕ) = Real.exp 0.141592 := by
    rw [← Real.exp_nat_mul]
    norm_num
  have hexp0141 : (1.070796 : ℝ) ^ 2 ≤ Real.exp 0.141592 := by
    rw [← hsq]
    exact pow_le_pow_left₀ (by norm_num) hhalf 2
  have hmul : Real.exp 3 * Real.exp 0.141592 = Real.exp 3.141592 := by
    rw [← Real.exp_add]
    norm_num
  have hexp_pi : (2.7182818283 : ℝ) ^ 3 * 1.070796 ^ 2 < Real.exp Real.pi := by
    calc (2.7182818283 : ℝ) ^ 3 * 1.070796 ^ 2
        < Real.exp 3 * 1.070796 ^ 2 := by
          exact mul_lt_mul_of_pos_right hexp3 (by norm_num)
      _ ≤ Real.exp 3 * Real.exp 0.141592 :=
          mul_le_mul_of_nonneg_left hexp0141 (Real.exp_pos 3).le
      _ = Real.exp 3.141592 := hmul
      _ < Real.exp Real.pi := Real.exp_lt_exp.mpr hpi
  have h1 : (23.0184 : ℝ) < Real.exp Real.pi := by
    refine lt_trans ?_ hexp_pi
    norm_num
  have hexp20 : (20 : ℝ) < Real.exp Real.pi := by linarith
  have hexp_neg : Real.exp (-Real.pi) < 1 / 20 := by
    rw [Real.exp_neg]
    have h := inv_strictAnti₀ (by norm_num : (0 : ℝ) < 20) hexp20
    simpa using h
  have h2 : 36 / Real.pi < 11.4592 := by
    rw [div_lt_iff₀ hpipos]
    nlinarith [hpi]
  rw [Real.sinh_eq]
  linarith

/-- C7: for every latitude strictly between -85 and 85 degrees and every
longitude in `[-180, 180)`, the projected fractional tile coordinates both
lie in the half-open interval `[0, 2 ^ zoom)`. -/
theorem C7_project_in_range (lat lon : ℝ) (zoom : ℕ)
    (hlat1 : -85 < lat) (hlat2 : lat < 85)
    (hlon1 : -180 ≤ lon) (hlon2 : lon < 180) :
    0 ≤ (lat_lon_to_tile lat lon zoom).1 ∧
    (lat_lon_to_tile lat lon zoom).1 < 2 ^ zoom ∧
    0 ≤ (lat_lon_to_tile lat lon zoom).2 ∧
    (lat_lon_to_tile lat lon zoom).2 < 2 ^ zoom := by
  have hn : (0 : ℝ) < 2 ^ zoom := by positivity
  have hpipos := Real.pi_pos
  set φ := lat * Real.pi / 180 with hphi
  have hφlt : φ < 17 * Real.pi / 36 := by
    rw [hphi]
    nlinarith [hpipos, hlat2]
  have hφgt : -(17 * Real.pi / 36) < φ := by
    rw [hphi]
    nlinarith [hpipos, hlat1]
  have h1736 : 17 * Real.pi / 36 < Real.pi / 2 := by nlinarith [hpipos]
  have hφ2 : -(Real.pi / 2) < φ := by linarith
  have hφ2' : φ < Real.pi / 2 := by linarith
  have hcos : 0 < Real.cos φ := Real.cos_pos_of_mem_Ioo ⟨hφ2, hφ2'⟩
  have hsqrt : Real.sqrt (1 + Real.tan φ ^ 2) = (Real.cos φ)⁻¹ := by
    rw [← Real.inv_sqrt_one_add_tan_sq hcos, inv_inv]
  have harsinh : Real.arsinh (Real.tan φ) =
      Real.log (Real.tan φ + Real.sqrt (1 + Real.tan φ ^ 2)) := rfl
  have hlog : Real.log (Real.tan φ + 1 / Real.cos φ) = Real.arsinh (Real.tan φ) := by
    rw [harsinh, hsqrt, one_div]
  -- tan (17π/36) < sinh π
  have h17lt : Real.tan (17 * Real.pi / 36) < Real.sinh Real.pi := by
    have hrw : (17 : ℝ) * Real.pi / 36 = Real.pi / 2 - Real.pi / 36 := by ring
    have h3 : Real.tan (17 * Real.pi / 36) = (Real.tan (Real.pi / 36))⁻¹ := by
      rw [hrw, Real.tan_pi_div_two_sub]
    have h4 : Real.pi / 36 < Real.tan (Real.pi / 36) :=
      Real.lt_tan (by positivity) (by nlinarith [hpipos])
    have h5 : (Real.tan (Real.pi / 36))⁻¹ < (Real.pi / 36)⁻¹ :=
      inv_strictAnti₀ (by positivity) h4
    have h6 : (Real.pi / 36)⁻¹ = 36 / Real.pi := inv_div Real.pi 36
    rw [h3]
    rw [h6] at h5
    linarith [sinh_pi_gt]
  have htanub : Real.tan φ < Real.sinh Real.pi := by
    have h1 : Real.tan φ < Real.tan (17 * Real.pi / 36) :=
      Real.tan_lt_tan_of_lt_of_lt_pi_div_two hφ2 h1736 hφlt
    linarith
  have htanlb : -Real.sinh Real.pi < Real.tan φ := by
    have h1 : Real.tan (-(17 * Real.pi / 36)) < Real.tan φ :=
      Real.tan_lt_tan_of_lt_of_lt_pi_div_two (by linarith) hφ2' hφgt
    rw [Real.tan_neg] at h1
    linarith
  have hub : Real.arsinh (Real.tan φ) < Real.pi := by
    have h := Real.arsinh_lt_arsinh.mpr htanub
    rwa [Real.arsinh_sinh] at h
  have hlb : -Real.pi < Real.arsinh (Real.tan φ) := by
    have hneg : -Real.sinh Real.pi = Real.sinh (-Real.pi) := (Real.sinh_neg _).symm
    have h := Real.arsinh_lt_arsinh.mpr htanlb
    rw [hneg, Real.arsinh_sinh] at h
    exact h
  have hdivub : Real.arsinh (Real.tan φ) / Real.pi < 1 :=
    (div_lt_one hpipos).mpr hub
  have hdivlb : -1 < Real.arsinh (Real.tan φ) / Real.pi := by
    rw [neg_lt, ← neg_div]
    exact (div_lt_one hpipos).mpr (by linarith)
  have hx0 : 0 ≤ (lon + 180) / 360 * 2 ^ zoom := by
    have : (0 : ℝ) ≤ (lon + 180) / 360 := by linarith
    positivity
  have hx1 : (lon + 180) / 360 * 2 ^ zoom < 2 ^ zoom := by
    have hlt : (lon + 180) / 360 < 1 := by linarith
    calc (lon + 180) / 360 * 2 ^ zoom < 1 * 2 ^ zoom :=
          mul_lt_mul_of_pos_right hlt hn
      _ = 2 ^ zoom := one_mul _
  refine ⟨hx0, hx1, ?_, ?_⟩
  · show 0 ≤ (1 - Real.log (Real.tan φ + 1 / Real.cos φ) / Real.pi) / 2 * 2 ^ zoom
    rw [hlog]
    have hpos : 0 < (1 - Real.arsinh (Real.tan φ) / Real.pi) / 2 := by linarith
    positivity
  · show (1 - Real.log (Real.tan φ + 1 / Real.cos φ) / Real.pi) / 2 * 2 ^ zoom < 2 ^ zoom
    rw [hlog]
    have hlt : (1 - Real.arsinh (Real.tan φ) / Real.pi) / 2 < 1 := by linarith
    calc (1 - Real.arsinh (Real.tan φ) / Real.pi) / 2 * 2 ^ zoom
        < 1 * 2 ^ zoom := mul_lt_mul_of_pos_right hlt hn
      _ = 2 ^ zoom := one_mul _

/-- Witness for C7 at a concrete input: the origin at zoom 0 projects into
`[0, 1)` on both axes. -/
theorem C7_project_in_range_witness :
    ((-85 : ℝ) < 0 ∧ (0 : ℝ) < 85 ∧ (-180 : ℝ) ≤ 0 ∧ (0 : ℝ) < 180) ∧
    (0 ≤ (lat_lon_to_tile 0 0 0).1 ∧ (lat_lon_to_tile 0 0 0).1 < 2 ^ 0 ∧
     0 ≤ (lat_lon_to_tile 0 0 0).2 ∧ (lat_lon_to_tile 0 0 0).2 < 2 ^ 0) :=
  ⟨⟨by norm_num, by norm_num, by norm_num, by norm_num⟩,
   C7_project_in_range 0 0 0 (by norm_num) (by norm_num) (by norm_num) (by norm_num)⟩

end WplaceDL
